import Mathlib

/-!
Verification of the core of `obsidian-git-livesync` (a one-way sync engine
that mirrors local text files into a CouchDB document store in the
Self-hosted LiveSync format).

The development shallowly embeds the source:
- `src/couchdb-client.ts` (`chunkId`, `get`, `put`, `delete`, `writeFile`,
  `readFile`) — the client is pure except for HTTP calls, which are modelled
  by an explicit `World` (document store plus a transport fault schedule) and
  an explicit operation log.
- `src/sync.ts` (`syncFiles`) — the batch sync over an explicit filesystem map.
- `src/watch.ts` (`watchVault`'s debounce logic) — a transition system over an
  explicit timer state.

Machine integers are `Nat` reduced mod 2^32 where the source relies on 32-bit
words (SHA-256). JavaScript strings are modelled as Lean `String` (sequences
of Unicode scalar values); UTF-8 encoding is spelled out explicitly so that
`Buffer.byteLength(content, "utf8")` and `createHash("sha256").update(content)`
are both faithful.
-/

namespace LiveSync

/-! ## SHA-256 (FIPS 180-4), as invoked by `createHash("sha256")` -/

/-- 32-bit truncating addition. -/
def add32 (x y : Nat) : Nat := (x + y) % 4294967296

/-- 32-bit rotate right. -/
def rotr32 (x n : Nat) : Nat := ((x >>> n) ||| (x <<< (32 - n))) % 4294967296

/-- Logical shift right (inputs are already < 2^32). -/
def shr32 (x n : Nat) : Nat := x >>> n

/-- SHA-256 round constants. -/
def shaK : List Nat :=
  [116352408, 1899447441, 3049323471, 3921009573, 961987163,
   1508970993, 2453635748, 2870763221, 3624381080, 310598401,
   607225278, 1426881987, 1925078388, 2162078206, 2614888103,
   3248222580, 3835390401, 4022224774, 264347078, 604807628,
   770255983, 1249150122, 1555081692, 1996064986, 2554220882,
   2821834349, 2952996808, 3210313671, 3336571891, 3584528711,
   113926993, 338241895, 666307205, 773529912, 1294757372,
   1396182291, 1695183700, 1986661051, 2177026350, 2456956037,
   2730485921, 2820302411, 3259730800, 3345764771, 3516065817,
   3600352804, 4094571909, 275423344, 430227734, 506948616,
   659060556, 883997877, 958139571, 1322822218, 1537002063,
   1747873779, 1955562222, 2024104815, 2227730452, 2361852424,
   2428436474, 2756734187, 3204031479, 3329325298]

/-- Big-endian 32-bit word from four bytes. -/
def wordOfBytes (b0 b1 b2 b3 : Nat) : Nat :=
  ((b0 % 256) <<< 24) + ((b1 % 256) <<< 16) + ((b2 % 256) <<< 8) + (b3 % 256)

/-- Split a byte list into big-endian 32-bit words (drops a ragged tail;
blocks are always a multiple of 4 bytes). -/
def toWords : List Nat → List Nat
  | b0 :: b1 :: b2 :: b3 :: rest => wordOfBytes b0 b1 b2 b3 :: toWords rest
  | _ => []

def smallSigma0 (x : Nat) : Nat := (rotr32 x 7) ^^^ (rotr32 x 18) ^^^ (shr32 x 3)

def smallSigma1 (x : Nat) : Nat := (rotr32 x 17) ^^^ (rotr32 x 19) ^^^ (shr32 x 10)

/-- Append the next word of the message schedule. -/
def extendStep (ws : List Nat) : List Nat :=
  let n := ws.length
  ws ++ [(smallSigma1 (ws.getD (n - 2) 0) + ws.getD (n - 7) 0 +
          smallSigma0 (ws.getD (n - 15) 0) + ws.getD (n - 16) 0) % 4294967296]

/-- Full 64-word message schedule from the 16 words of one block. -/
def msgSchedule (ws : List Nat) : List Nat := extendStep^[48] ws

def bigSigma0 (x : Nat) : Nat := (rotr32 x 2) ^^^ (rotr32 x 13) ^^^ (rotr32 x 22)

def bigSigma1 (x : Nat) : Nat := (rotr32 x 6) ^^^ (rotr32 x 11) ^^^ (rotr32 x 25)

def chFn (x y z : Nat) : Nat := (x &&& y) ^^^ ((x ^^^ 4294967295) &&& z)

def majFn (x y z : Nat) : Nat := (x &&& y) ^^^ (x &&& z) ^^^ (y &&& z)

/-- The eight 32-bit working registers of SHA-256. -/
structure Hash8 where
  a : Nat
  b : Nat
  c : Nat
  d : Nat
  e : Nat
  f : Nat
  g : Nat
  h : Nat
deriving DecidableEq, Repr

/-- One compression round; `kw` is the round constant plus schedule word. -/
def shaRound (st : Hash8) (kw : Nat) : Hash8 :=
  let t1 := (st.h + bigSigma1 st.e + chFn st.e st.f st.g + kw) % 4294967296
  let t2 := (bigSigma0 st.a + majFn st.a st.b st.c) % 4294967296
  { a := (t1 + t2) % 4294967296, b := st.a, c := st.b, d := st.c,
    e := (st.d + t1) % 4294967296, f := st.e, g := st.f, h := st.g }

/-- Compress one 64-byte block into the running hash. -/
def compressBlock (st : Hash8) (block : List Nat) : Hash8 :=
  let ws := msgSchedule (toWords block)
  let kws := List.zipWith (fun k w => (k + w) % 4294967296) shaK ws
  let t := kws.foldl shaRound st
  { a := add32 st.a t.a, b := add32 st.b t.b, c := add32 st.c t.c,
    d := add32 st.d t.d, e := add32 st.e t.e, f := add32 st.f t.f,
    g := add32 st.g t.g, h := add32 st.h t.h }

/-- Big-endian length field (8 bytes) for the padding, `bitLen` in bits. -/
def lenBytes (bitLen : Nat) : List Nat :=
  [(bitLen >>> 56) % 256, (bitLen >>> 48) % 256, (bitLen >>> 40) % 256,
   (bitLen >>> 32) % 256, (bitLen >>> 24) % 256, (bitLen >>> 16) % 256,
   (bitLen >>> 8) % 256, bitLen % 256]

/-- SHA-256 padding: 0x80, zeros, then the 64-bit message length. -/
def padMessage (msg : List Nat) : List Nat :=
  let len := msg.length
  let padZeros := (64 - ((len + 9) % 64)) % 64
  msg ++ [0x80] ++ List.replicate padZeros 0 ++ lenBytes (len * 8)

/-- Split a padded message into 64-byte blocks (structural recursion on a
fuel argument so the kernel can evaluate it; `fuel = l.length` suffices since
every step consumes 64 bytes of a nonempty list). -/
def toBlocksGo : Nat → List Nat → List (List Nat)
  | 0, _ => []
  | _ + 1, [] => []
  | fuel + 1, l => l.take 64 :: toBlocksGo fuel (l.drop 64)

/-- Split a padded message into 64-byte blocks. -/
def toBlocks (l : List Nat) : List (List Nat) := toBlocksGo l.length l

/-- SHA-256 initial hash value. -/
def shaH0 : Hash8 :=
  ⟨1779033703, 3144134277, 1013904242,
   2773480762, 1359893119, 2600822924,
   528734635, 1541459225⟩

/-- Big-endian bytes of a 32-bit word. -/
def wordBytes (w : Nat) : List Nat :=
  [(w >>> 24) % 256, (w >>> 16) % 256, (w >>> 8) % 256, w % 256]

/-- SHA-256 digest (32 bytes) of a byte list. -/
def sha256 (msg : List Nat) : List Nat :=
  let st := (toBlocks (padMessage msg)).foldl compressBlock shaH0
  wordBytes st.a ++ wordBytes st.b ++ wordBytes st.c ++ wordBytes st.d ++
  wordBytes st.e ++ wordBytes st.f ++ wordBytes st.g ++ wordBytes st.h

/-! ## UTF-8 encoding (JS `Buffer.byteLength(s, "utf8")` and hash input) -/

/-- UTF-8 encoding of one Unicode scalar value. -/
def utf8Bytes (c : Char) : List Nat :=
  let n := c.toNat
  if n < 0x80 then [n]
  else if n < 0x800 then
    [0xc0 ||| (n >>> 6), 0x80 ||| (n &&& 0x3f)]
  else if n < 0x10000 then
    [0xe0 ||| (n >>> 12), 0x80 ||| ((n >>> 6) &&& 0x3f), 0x80 ||| (n &&& 0x3f)]
  else
    [0xf0 ||| (n >>> 18), 0x80 ||| ((n >>> 12) &&& 0x3f),
     0x80 ||| ((n >>> 6) &&& 0x3f), 0x80 ||| (n &&& 0x3f)]

/-- UTF-8 bytes of a string. -/
def strUtf8 (s : String) : List Nat := (s.data.map utf8Bytes).flatten

/-- `Buffer.byteLength(s, "utf8")`: the exact UTF-8 byte length. -/
def utf8Len (s : String) : Nat := (strUtf8 s).length

/-! ## `CouchDBClient.chunkId` -/

/-- The sixteen lowercase hexadecimal digits, as used by `digest("hex")`. -/
def hexChars : List Char := "0123456789abcdef".data

def nibbleChar (n : Nat) : Char := hexChars.getD n '0'

/-- Two lowercase hex digits of one byte (bytes are < 256). -/
def byteHex (b : Nat) : List Char := [nibbleChar ((b / 16) % 16), nibbleChar (b % 16)]

def bytesToHex (bs : List Nat) : List Char := (bs.map byteHex).flatten

/-- `chunkId(content)`: `"h:" + sha256(content).digest("hex").slice(0, 40)`
(from `src/couchdb-client.ts`). -/
def chunkId (content : String) : String :=
  "h:" ++ String.mk ((bytesToHex (sha256 (strUtf8 content))).take 40)

/-! ## Document model and store

LiveSync documents: a metadata document (`type: "plain"`) keyed by the file
path, and leaf documents (`type: "leaf"`) keyed by `chunkId`. The store is
CouchDB, external to the repository; its get/put/delete semantics
(revision-checked optimistic concurrency) are modelled from the spec (§4.2,
§7). -/

/-- A document body: either a metadata document (`type: "plain"`) or a chunk
(`type: "leaf"`). -/
inductive DocBody where
  | plain (path : String) (children : List String) (ctime mtime : Int) (size : Nat)
  | leaf (data : String)
deriving DecidableEq, Repr

/-- `meta?.ctime`: present only on metadata documents. -/
def DocBody.ctimeOf : DocBody → Option Int
  | .plain _ _ ct _ _ => some ct
  | .leaf _ => none

/-- `meta.children`: `undefined` (here `none`) on a leaf document. -/
def DocBody.childrenOf : DocBody → Option (List String)
  | .plain _ ch _ _ _ => some ch
  | .leaf _ => none

/-- `leaf.data`. A non-leaf document read as a chunk yields JS `undefined`,
which `Array.prototype.join` renders as the empty string. -/
def DocBody.dataOf : DocBody → String
  | .plain _ _ _ _ _ => ""
  | .leaf d => d

/-- The store: an association list from document id to (revision, body);
the key of the first matching entry wins and keys are kept unique by
construction. -/
abbrev Store := List (String × Nat × DocBody)

/-- Current revision and body of a document, `none` when absent (HTTP 404). -/
def Store.findDoc : Store → String → Option (Nat × DocBody)
  | [], _ => none
  | (i, e) :: rest, id => if i = id then some e else Store.findDoc rest id

/-- Replace the document at `id` (or append it when new). -/
def Store.setDoc : Store → String → Nat → DocBody → Store
  | [], id, rev, body => [(id, rev, body)]
  | (i, e) :: rest, id, rev, body =>
    if i = id then (id, rev, body) :: rest else (i, e) :: Store.setDoc rest id rev body

/-- Remove the document at `id` (first occurrence). -/
def Store.removeDoc : Store → String → Store
  | [], _ => []
  | (i, e) :: rest, id => if i = id then rest else (i, e) :: Store.removeDoc rest id

/-- Error taxonomy (§7). `network` is a rejected `fetch`; `conflict` is
HTTP 409 from a stale/missing revision; `notFound` is HTTP 404 on delete;
`missingChunk` is the IntegrityFault thrown by `readFile`; `notIterable` is
the TypeError raised when iterating the `children` of a non-metadata
document. -/
inductive Err where
  | network
  | conflict
  | notFound
  | missingChunk (childId filePath : String)
  | notIterable (id : String)
deriving DecidableEq, Repr

/-- The world a client call runs against: the store contents and a transport
fault schedule. Each HTTP request consumes one entry of `net`; `false` makes
that request fail at the transport level, and an empty schedule means every
request goes through. -/
structure World where
  store : Store
  net : List Bool
deriving DecidableEq, Repr

/-- Consume the next transport outcome. -/
def World.takeNet : World → Bool × World
  | ⟨s, []⟩ => (true, ⟨s, []⟩)
  | ⟨s, b :: rest⟩ => (b, ⟨s, rest⟩)

/-- Log of store requests issued (mutating and read-only), used to state
frame conditions. -/
inductive StoreOp where
  | getOp (id : String)
  | putOp (id : String) (rev : Option Nat) (body : DocBody)
  | delOp (id : String) (rev : Nat)
deriving DecidableEq, Repr

namespace CouchDBClient

/-- `CouchDBClient.get(id)`: 404 is a normal `none` outcome; only a transport
failure throws. Returns the revision (`_rev`) and body of the document. -/
def get (w : World) (id : String) :
    Except Err (Option (Nat × DocBody)) × World × List StoreOp :=
  let (ok, w) := w.takeNet
  if ok then (.ok (w.store.findDoc id), w, [.getOp id])
  else (.error .network, w, [.getOp id])

/-- `CouchDBClient.put(doc)`. Store semantics modelled from the spec (§4.2):
creates when the id is absent and no revision is submitted; updates when the
submitted revision matches the current one; otherwise fails with Conflict. -/
def put (w : World) (id : String) (rev? : Option Nat) (body : DocBody) :
    Except Err Nat × World × List StoreOp :=
  let (ok, w) := w.takeNet
  if ok then
    match w.store.findDoc id, rev? with
    | none, none =>
      (.ok 1, { w with store := w.store.setDoc id 1 body }, [.putOp id rev? body])
    | some (cur, _), some r =>
      if r = cur then
        (.ok (cur + 1), { w with store := w.store.setDoc id (cur + 1) body },
         [.putOp id rev? body])
      else (.error .conflict, w, [.putOp id rev? body])
    | _, _ => (.error .conflict, w, [.putOp id rev? body])
  else (.error .network, w, [.putOp id rev? body])

/-- `CouchDBClient.delete(id, rev)`: NotFound when the id is absent, Conflict
on a stale revision (spec §4.2). -/
def delete (w : World) (id : String) (rev : Nat) :
    Except Err Unit × World × List StoreOp :=
  let (ok, w) := w.takeNet
  if ok then
    match w.store.findDoc id with
    | none => (.error .notFound, w, [.delOp id rev])
    | some (cur, _) =>
      if rev = cur then
        (.ok (), { w with store := w.store.removeDoc id }, [.delOp id rev])
      else (.error .conflict, w, [.delOp id rev])
  else (.error .network, w, [.delOp id rev])

/-- `CouchDBClient.writeFile(path, content, options)` from
`src/couchdb-client.ts`: fetch any existing metadata document, compute
`ctime = options?.ctime ?? existingMeta?.ctime ?? now` and
`mtime = options?.mtime ?? now`, create the leaf only if absent, then put the
metadata document (submitting the existing `_rev` when there is one). Any
rejected request propagates as an error, as a thrown exception does. -/
def writeFile (w : World) (path content : String) (octime omtime : Option Int)
    (now : Int) : Except Err (String × String) × World × List StoreOp :=
  let mtime := omtime.getD now
  match get w path with
  | (.error e, w, ops1) => (.error e, w, ops1)
  | (.ok existingMeta, w, ops1) =>
    let ctime := octime.getD ((existingMeta.bind fun rb => rb.2.ctimeOf).getD now)
    let leafId := chunkId content
    match get w leafId with
    | (.error e, w, ops2) => (.error e, w, ops1 ++ ops2)
    | (.ok existingLeaf, w, ops2) =>
      let afterLeaf : Except Err Unit × World × List StoreOp :=
        match existingLeaf with
        | some _ => (.ok (), w, [])
        | none =>
          match put w leafId none (.leaf content) with
          | (.error e, w, ops) => (.error e, w, ops)
          | (.ok _, w, ops) => (.ok (), w, ops)
      match afterLeaf with
      | (.error e, w, ops3) => (.error e, w, ops1 ++ ops2 ++ ops3)
      | (.ok _, w, ops3) =>
        let metaRev := existingMeta.map (fun rb => rb.1)
        let metaBody := DocBody.plain path [leafId] ctime mtime (utf8Len content)
        match put w path metaRev metaBody with
        | (.error e, w, ops4) => (.error e, w, ops1 ++ ops2 ++ ops3 ++ ops4)
        | (.ok _, w, ops4) => (.ok (path, leafId), w, ops1 ++ ops2 ++ ops3 ++ ops4)

/-- The chunk-fetch loop of `readFile`: fetch every child in order, throwing
`Missing chunk <id> for file <path>` when one is absent. -/
def readChunks (w : World) (children : List String) (path : String) :
    Except Err (List String) × World × List StoreOp :=
  match children with
  | [] => (.ok [], w, [])
  | cid :: rest =>
    match get w cid with
    | (.error e, w, ops) => (.error e, w, ops)
    | (.ok none, w, ops) => (.error (.missingChunk cid path), w, ops)
    | (.ok (some (_, body)), w, ops) =>
      match readChunks w rest path with
      | (.error e, w', ops2) => (.error e, w', ops ++ ops2)
      | (.ok datas, w', ops2) => (.ok (body.dataOf :: datas), w', ops ++ ops2)

/-- `CouchDBClient.readFile(path)`: fetch the metadata document (null when
absent), fetch every chunk of `children` in order and join the payloads. -/
def readFile (w : World) (path : String) :
    Except Err (Option String) × World × List StoreOp :=
  match get w path with
  | (.error e, w, ops) => (.error e, w, ops)
  | (.ok none, w, ops) => (.ok none, w, ops)
  | (.ok (some (_, body)), w, ops) =>
    match body.childrenOf with
    | none => (.error (.notIterable path), w, ops)
    | some children =>
      match readChunks w children path with
      | (.error e, w', ops2) => (.error e, w', ops ++ ops2)
      | (.ok datas, w', ops2) => (.ok (some (String.join datas)), w', ops ++ ops2)

end CouchDBClient

/-! ## `syncFiles` (src/sync.ts)

The on-disk vault is modelled as a map from the relative file path to its
content and stat timestamps (`resolve(vaultRoot, filePath)` is a bijection
between relative paths and absolute paths under a fixed root, so the map is
keyed by the relative path directly). -/

/-- What `statSync` + `readFileSync(absPath, "utf-8")` observe for a path. -/
structure FileInfo where
  content : String
  ctimeMs : Int
  mtimeMs : Int
deriving DecidableEq, Repr

/-- The on-disk vault. -/
abbrev Fs := List (String × FileInfo)

/-- `existsSync` / `readFileSync`: the file at a relative path, if any. -/
def Fs.findFile : Fs → String → Option FileInfo
  | [], _ => none
  | (p, fi) :: rest, q => if p = q then some fi else Fs.findFile rest q

/-- The aggregate result of `syncFiles`. -/
structure SyncResult where
  synced : List String
  deleted : List String
  errors : List (String × Err)
deriving DecidableEq, Repr

/-- How one iteration of the `syncFiles` loop classifies its path. -/
inductive PathOutcome where
  | syncedP
  | deletedP
  | skippedP
  | erroredP (e : Err)
deriving DecidableEq, Repr

/-- The body of the `for` loop of `syncFiles` for one path: the whole body
runs inside `try`/`catch`, so any thrown client error becomes `erroredP`.
The delete branch checks `dryRun` before the store lookup; the sync branch
reads the file from disk and then checks `dryRun` before writing. -/
def syncOne (fs : Fs) (w : World) (dryRun del : Bool) (now : Int) (p : String) :
    PathOutcome × World × List StoreOp :=
  match fs.findFile p with
  | none =>
    if del then
      if dryRun then (.deletedP, w, [])
      else
        match CouchDBClient.get w p with
        | (.error e, w, ops) => (.erroredP e, w, ops)
        | (.ok none, w, ops) => (.skippedP, w, ops)
        | (.ok (some (rev, _)), w, ops) =>
          match CouchDBClient.delete w p rev with
          | (.error e, w, ops2) => (.erroredP e, w, ops ++ ops2)
          | (.ok _, w, ops2) => (.deletedP, w, ops ++ ops2)
    else (.skippedP, w, [])
  | some fi =>
    if dryRun then (.syncedP, w, [])
    else
      match CouchDBClient.writeFile w p fi.content (some fi.ctimeMs)
          (some fi.mtimeMs) now with
      | (.error e, w, ops) => (.erroredP e, w, ops)
      | (.ok _, w, ops) => (.syncedP, w, ops)

/-- Prepend one loop iteration's outcome onto the tail's result, preserving
the order in which `syncFiles` pushes paths. -/
def consOutcome (p : String) (out : PathOutcome) (res : SyncResult) : SyncResult :=
  match out with
  | .syncedP => { res with synced := p :: res.synced }
  | .deletedP => { res with deleted := p :: res.deleted }
  | .skippedP => res
  | .erroredP e => { res with errors := (p, e) :: res.errors }

/-- `syncFiles(paths, config, options)` from `src/sync.ts`: process each path
in order, catching per-path failures into `errors` and continuing. -/
def syncFiles (fs : Fs) (w : World) (dryRun del : Bool) (now : Int) :
    List String → SyncResult × World × List StoreOp
  | [] => (⟨[], [], []⟩, w, [])
  | p :: rest =>
    let (out, w', ops1) := syncOne fs w dryRun del now p
    let (res, w'', ops2) := syncFiles fs w' dryRun del now rest
    (consOutcome p out res, w'', ops1 ++ ops2)

/-! ## `watchVault` (src/watch.ts)

The debounce logic: a shared `pendingChanges` map from relative path to the
armed timer. `setTimeout`/`clearTimeout` are modelled by an explicit set of
armed timers with integer deadlines and unique ids; event handling and timer
firing are the two transitions. Dispatch (the `syncFiles`/`deleteFile` call)
is recorded in a log. -/

/-- Which action a debounced event will dispatch. -/
inductive Intent where
  | syncI
  | deleteI
deriving DecidableEq, Repr

/-- One armed `setTimeout`. -/
structure Timer where
  tid : Nat
  tpath : String
  intent : Intent
  deadline : Int
deriving DecidableEq, Repr

/-- The watcher's mutable state: the timer-id counter, the armed timers, the
`pendingChanges` map (path to timer id), and the log of dispatched actions. -/
structure WatchState where
  nextId : Nat
  armed : List Timer
  pending : List (String × Nat)
  dispatched : List (String × Intent)
deriving DecidableEq, Repr

def lookupPending : List (String × Nat) → String → Option Nat
  | [], _ => none
  | (p, t) :: rest, q => if p = q then some t else lookupPending rest q

def setPending : List (String × Nat) → String → Nat → List (String × Nat)
  | [], q, t => [(q, t)]
  | (p, u) :: rest, q, t =>
    if p = q then (q, t) :: rest else (p, u) :: setPending rest q t

def removePending : List (String × Nat) → String → List (String × Nat)
  | [], _ => []
  | (p, u) :: rest, q => if p = q then rest else (p, u) :: removePending rest q

/-- Characters after the last `/`. -/
def afterLastSlash (cs : List Char) : List Char :=
  cs.foldl (fun acc c => if c = '/' then [] else acc ++ [c]) []

/-- Trailing path separators are ignored, as in Node. -/
def dropTrailingSlashes (cs : List Char) : List Char :=
  (cs.reverse.dropWhile (fun c => c = '/')).reverse

/-- `path.basename`: the last `/`-separated component. -/
def basename (p : String) : String :=
  String.mk (afterLastSlash (dropTrailingSlashes p.data))

/-- Index of the last `.` in a character list. -/
def lastDotIdx : List Char → Option Nat
  | [] => none
  | c :: rest =>
    match lastDotIdx rest with
    | some i => some (i + 1)
    | none => if c = '.' then some 0 else none

/-- `path.extname`: the suffix of the basename from its last dot; empty for
dotfiles (a leading dot), for `".."`, and when there is no dot. -/
def extname (p : String) : String :=
  let cs := (basename p).toList
  match lastDotIdx cs with
  | none => ""
  | some i =>
    if i = 0 then ""
    else if i = 1 ∧ cs = ['.', '.'] then ""
    else String.mk (cs.drop i)

/-- `clearTimeout(existing)` for the timer registered under `p`, if any. The
`pendingChanges` entry itself is overwritten by the caller right after. -/
def clearPending (s : WatchState) (p : String) : WatchState :=
  match lookupPending s.pending p with
  | none => s
  | some tid => { s with armed := s.armed.filter (fun tm => tm.tid ≠ tid) }

/-- `debouncedSync` / `debouncedDelete` from `src/watch.ts` (they differ only
in the dispatched intent): drop the event unless the extension is allowed,
clear any pending timer for the path, and arm a fresh timer for this event's
intent with a full debounce interval. -/
def debounced (exts : List String) (debounceMs : Int) (s : WatchState) (t : Int)
    (p : String) (intent : Intent) : WatchState :=
  if exts.contains (extname p) then
    let s' := clearPending s p
    { nextId := s'.nextId + 1,
      armed := s'.armed ++ [⟨s'.nextId, p, intent, t + debounceMs⟩],
      pending := setPending s'.pending p s'.nextId,
      dispatched := s'.dispatched }
  else s

/-- The `setTimeout` callback: remove the path from `pendingChanges`, then
dispatch the action. -/
def fireTimer (s : WatchState) (tm : Timer) : WatchState :=
  { s with pending := removePending s.pending tm.tpath,
           dispatched := s.dispatched ++ [(tm.tpath, tm.intent)] }

/-- Fire every timer whose deadline has passed by time `t`. -/
def fireDue (s : WatchState) (t : Int) : WatchState :=
  let due := s.armed.filter (fun tm => tm.deadline ≤ t)
  let rest := s.armed.filter (fun tm => ¬ tm.deadline ≤ t)
  due.foldl fireTimer { s with armed := rest }

/-- Deliver one filesystem event at time `t`: due timers fire first, then the
event handler runs. -/
def stepEvent (exts : List String) (debounceMs : Int) (s : WatchState)
    (ev : Int × String × Intent) : WatchState :=
  debounced exts debounceMs (fireDue s ev.1) ev.1 ev.2.1 ev.2.2

/-- Deliver a time-ordered sequence of filesystem events. -/
def runEvents (exts : List String) (debounceMs : Int) (s : WatchState)
    (evs : List (Int × String × Intent)) : WatchState :=
  evs.foldl (stepEvent exts debounceMs) s

/-- The watcher's initial state. -/
def initialWatch : WatchState := ⟨0, [], [], []⟩

/-- Number of armed timers for a path. -/
def armedFor (s : WatchState) (p : String) : Nat :=
  (s.armed.filter (fun tm => tm.tpath = p)).length

/-- State well-formedness: `pendingChanges` keys are unique, timer ids are
unique and fresh, and every armed timer is the one its path's map entry
points to. -/
def WatchWF (s : WatchState) : Prop :=
  (s.pending.map Prod.fst).Nodup ∧
  (s.armed.map Timer.tid).Nodup ∧
  (∀ tm ∈ s.armed, lookupPending s.pending tm.tpath = some tm.tid) ∧
  (∀ tm ∈ s.armed, tm.tid < s.nextId) ∧
  (∀ pr ∈ s.pending, pr.2 < s.nextId)

/-! ## Derived notions used to state the claims -/

/-- The `ctime` value `writeFile` computes:
`options?.ctime ?? existingMeta?.ctime ?? now`. -/
def metaCtime (s : Store) (p : String) (octime : Option Int) (now : Int) : Int :=
  octime.getD (((s.findDoc p).bind fun rb => rb.2.ctimeOf).getD now)

/-- The revision the store assigns to the next successful put at `p`. -/
def newRev (s : Store) (p : String) : Nat :=
  match s.findDoc p with
  | none => 1
  | some (r, _) => r + 1

/-- Effect of the leaf-creation step of `writeFile` on the store: the leaf is
created only when absent. -/
def leafStep (s : Store) (c : String) : Store :=
  match s.findDoc (chunkId c) with
  | none => s.setDoc (chunkId c) 1 (.leaf c)
  | some _ => s

/-- The requests the leaf-creation step of `writeFile` issues. -/
def leafOps (s : Store) (c : String) : List StoreOp :=
  match s.findDoc (chunkId c) with
  | none => [.putOp (chunkId c) none (.leaf c)]
  | some _ => []

/-- The metadata document `writeFile` submits. -/
def metaBodyFor (s : Store) (p c : String) (octime omtime : Option Int)
    (now : Int) : DocBody :=
  .plain p [chunkId c] (metaCtime s p octime now) (omtime.getD now) (utf8Len c)

/-- Whether a logged request is a put of the document `id`. -/
def isPutTo (id : String) : StoreOp → Bool
  | .putOp i _ _ => i = id
  | _ => false

/-- The store is consistent at the chunk id of `c`: any document stored under
`chunkId c` is the leaf holding exactly `c` (true of every chunk the engine
itself writes). -/
def leafConsistent (s : Store) (c : String) : Bool :=
  match s.findDoc (chunkId c) with
  | none => true
  | some rb => rb.2 == DocBody.leaf c

/-- What the chunk-fetch loop of `readFile` pushes for one child id: the
`data` field of a leaf; the empty string stands for the JS `undefined` a
non-leaf document would contribute through `join`. -/
def chunkPayload (s : Store) (cid : String) : String :=
  match s.findDoc cid with
  | some (_, b) => b.dataOf
  | none => ""

/-- The submitted revision matches the store's state for `id`: either the id
exists and the submitted revision equals its current one, or the id is absent
and no revision was submitted. -/
def revMatches (s : Store) (id : String) (rev? : Option Nat) : Prop :=
  match s.findDoc id, rev? with
  | some (cur, _), some r => r = cur
  | none, none => True
  | _, _ => False

end LiveSync

deriving instance DecidableEq for Except

namespace LiveSync

/-! ## Store lemmas -/

theorem findDoc_setDoc_self (s : Store) (id : String) (rev : Nat) (body : DocBody) :
    (s.setDoc id rev body).findDoc id = some (rev, body) := by
  induction s with
  | nil => simp [Store.setDoc, Store.findDoc]
  | cons hd tl ih =>
    obtain ⟨i, e⟩ := hd
    by_cases h : i = id <;> simp [Store.setDoc, Store.findDoc, h, ih]

theorem findDoc_setDoc_ne (s : Store) (id id' : String) (rev : Nat) (body : DocBody)
    (h : id' ≠ id) : (s.setDoc id rev body).findDoc id' = s.findDoc id' := by
  induction s with
  | nil => simp [Store.setDoc, Store.findDoc, Ne.symm h]
  | cons hd tl ih =>
    obtain ⟨i, e⟩ := hd
    by_cases hi : i = id
    · subst hi
      simp [Store.setDoc, Store.findDoc, Ne.symm h]
    · simp [Store.setDoc, Store.findDoc, hi, ih]

/-! ## Evaluation of `writeFile` against a reachable transport -/

theorem writeFile_run (s : Store) (p c : String) (tc tm : Option Int) (now : Int)
    (hp : p ≠ chunkId c) :
    CouchDBClient.writeFile ⟨s, []⟩ p c tc tm now =
      (.ok (p, chunkId c),
       ⟨(leafStep s c).setDoc p (newRev s p) (metaBodyFor s p c tc tm now), []⟩,
       [.getOp p, .getOp (chunkId c)] ++ leafOps s c ++
         [.putOp p ((s.findDoc p).map (fun rb => rb.1)) (metaBodyFor s p c tc tm now)]) := by
  have hleafp : ∀ rev body, (s.setDoc (chunkId c) rev body).findDoc p = s.findDoc p :=
    fun rev body => findDoc_setDoc_ne s (chunkId c) p rev body hp
  cases hm : s.findDoc p with
  | none =>
    cases hl : s.findDoc (chunkId c) with
    | none =>
      simp [CouchDBClient.writeFile, CouchDBClient.get, CouchDBClient.put,
        World.takeNet, hm, hl, hleafp, leafStep, leafOps, newRev, metaBodyFor, metaCtime]
    | some rb =>
      simp [CouchDBClient.writeFile, CouchDBClient.get, CouchDBClient.put,
        World.takeNet, hm, hl, leafStep, leafOps, newRev, metaBodyFor, metaCtime]
  | some rb =>
    cases hl : s.findDoc (chunkId c) with
    | none =>
      simp [CouchDBClient.writeFile, CouchDBClient.get, CouchDBClient.put,
        World.takeNet, hm, hl, hleafp, leafStep, leafOps, newRev, metaBodyFor, metaCtime]
    | some rb' =>
      simp [CouchDBClient.writeFile, CouchDBClient.get, CouchDBClient.put,
        World.takeNet, hm, hl, leafStep, leafOps, newRev, metaBodyFor, metaCtime]

/-! ## Request-log shapes of the client primitives -/

theorem get_ops (w : World) (id : String) :
    (CouchDBClient.get w id).2.2 = [.getOp id] := by
  unfold CouchDBClient.get
  rcases htn : w.takeNet with ⟨b, w1⟩
  cases b <;> simp

theorem put_ops (w : World) (id : String) (rev? : Option Nat) (body : DocBody) :
    (CouchDBClient.put w id rev? body).2.2 = [.putOp id rev? body] := by
  unfold CouchDBClient.put
  rcases htn : w.takeNet with ⟨b, w1⟩
  cases b
  · simp
  · rcases hf : w1.store.findDoc id with _ | ⟨cur, bd⟩ <;> rcases rev? with _ | r
    · simp [hf]
    · simp [hf]
    · simp [hf]
    · by_cases hr : r = cur <;> simp [hf, hr]

/-- Every put `writeFile` issues is either the leaf put of the content or the
metadata put: there are no other mutating requests. -/
theorem writeFile_ops (w : World) (p c : String) (tc tm : Option Int) (now : Int) :
    ∀ op ∈ (CouchDBClient.writeFile w p c tc tm now).2.2,
      op = .putOp (chunkId c) none (.leaf c) ∨
      (∃ rev? ct mt, op = .putOp p rev? (.plain p [chunkId c] ct mt (utf8Len c))) ∨
      (∃ id, op = .getOp id) := by
  intro op hop
  unfold CouchDBClient.writeFile at hop
  rcases h1 : CouchDBClient.get w p with ⟨r1, w1, ops1⟩
  have hops1 : ops1 = [.getOp p] := by
    have := get_ops w p
    rw [h1] at this
    exact this
  rcases r1 with e1 | meta1
  · rw [h1] at hop
    simp only at hop
    subst hops1
    simp at hop
    simp [hop]
  · rw [h1] at hop
    simp only at hop
    rcases h2 : CouchDBClient.get w1 (chunkId c) with ⟨r2, w2, ops2⟩
    have hops2 : ops2 = [.getOp (chunkId c)] := by
      have := get_ops w1 (chunkId c)
      rw [h2] at this
      exact this
    rw [h2] at hop
    rcases r2 with e2 | leaf2
    · simp only at hop
      subst hops1 hops2
      simp at hop
      rcases hop with h | h <;> simp [h]
    · simp only at hop
      -- the leaf-creation step
      rcases leaf2 with _ | lv
      · -- leaf absent: a put of the leaf happens
        rcases h3 : CouchDBClient.put w2 (chunkId c) none (.leaf c) with ⟨r3, w3, ops3⟩
        have hops3 : ops3 = [.putOp (chunkId c) none (.leaf c)] := by
          have := put_ops w2 (chunkId c) none (.leaf c)
          rw [h3] at this
          exact this
        rw [h3] at hop
        rcases r3 with e3 | u3
        · simp only at hop
          subst hops1 hops2 hops3
          simp at hop
          rcases hop with h | h | h <;> simp [h]
        · simp only at hop
          rcases h4 : CouchDBClient.put w3 p (meta1.map (fun rb => rb.1))
              (.plain p [chunkId c] (tc.getD ((meta1.bind fun rb => rb.2.ctimeOf).getD now))
                (tm.getD now) (utf8Len c)) with ⟨r4, w4, ops4⟩
          have hops4 := put_ops w3 p (meta1.map (fun rb => rb.1))
              (.plain p [chunkId c] (tc.getD ((meta1.bind fun rb => rb.2.ctimeOf).getD now))
                (tm.getD now) (utf8Len c))
          rw [h4] at hops4
          rw [h4] at hop
          rcases r4 with e4 | ok4 <;>
          · simp only at hop
            subst hops1 hops2 hops3 hops4
            simp at hop
            rcases hop with h | h | h | h
            · simp [h]
            · simp [h]
            · simp [h]
            · subst h
              exact Or.inr (Or.inl ⟨_, _, _, rfl⟩)
      · -- leaf present: straight to the metadata put
        dsimp only at hop
        rcases h4 : CouchDBClient.put w2 p (meta1.map (fun rb => rb.1))
            (.plain p [chunkId c] (tc.getD ((meta1.bind fun rb => rb.2.ctimeOf).getD now))
              (tm.getD now) (utf8Len c)) with ⟨r4, w4, ops4⟩
        have hops4 := put_ops w2 p (meta1.map (fun rb => rb.1))
            (.plain p [chunkId c] (tc.getD ((meta1.bind fun rb => rb.2.ctimeOf).getD now))
              (tm.getD now) (utf8Len c))
        rw [h4] at hops4
        rw [h4] at hop
        rcases r4 with e4 | ok4 <;>
        · simp only at hop
          subst hops1 hops2 hops4
          simp at hop
          rcases hop with h | h | h
          · simp [h]
          · simp [h]
          · subst h
            exact Or.inr (Or.inl ⟨_, _, _, rfl⟩)

/-! ## Claim C1 -/

/-- C1. The claim says `createdAt` (ctime) is set once on first sync and never
overwritten by later updates, for any caller-supplied timestamps. The code
computes `ctime = options?.ctime ?? existingMeta?.ctime ?? now`, so a
caller-supplied ctime (and `syncFiles` always supplies `stat.ctimeMs`) wins
over the stored one: updating a record whose stored ctime is 100 with
`options.ctime = 200` leaves ctime 200, not 100 — contradicting the code's own
comment ("Preserve original ctime on updates") and its e2e test. -/
theorem writeFile_callerCtime_overwrites_stored :
    Store.findDoc
        (CouchDBClient.writeFile
          ⟨[("a.md", 1, DocBody.plain "a.md" ["h:x"] 100 100 1)], []⟩
          "a.md" "y" (some 200) (some 250) 300).2.1.store "a.md"
      = some (2, DocBody.plain "a.md" [chunkId "y"] 200 250 1)
    ∧ (200 : Int) ≠ 100 := by decide

/-! ## Claim C3 -/

/-- C3. Every metadata document `writeFile` submits carries
`size = Buffer.byteLength(content, "utf8")`: the exact UTF-8 byte length of
the content, not the character count. -/
theorem writeFile_meta_size_is_utf8_bytes (w : World) (p c : String)
    (tc tm : Option Int) (now : Int) (id : String) (rev? : Option Nat)
    (q : String) (ch : List String) (ct mt : Int) (sz : Nat)
    (hmem : StoreOp.putOp id rev? (.plain q ch ct mt sz) ∈
      (CouchDBClient.writeFile w p c tc tm now).2.2) :
    sz = utf8Len c := by
  rcases writeFile_ops w p c tc tm now _ hmem with h | ⟨r, ct', mt', h⟩ | ⟨i, h⟩
  · exact absurd h (by simp)
  · simp only [StoreOp.putOp.injEq, DocBody.plain.injEq] at h
    exact h.2.2.2.2.2.2
  · exact absurd h (by simp)

/-- C3 witness: the 5-character string こんにちは is reported as 15 bytes. -/
theorem writeFile_meta_size_is_utf8_bytes_witness :
    (15 : Nat) = utf8Len "こんにちは" ∧ "こんにちは".length = 5 :=
  ⟨writeFile_meta_size_is_utf8_bytes ⟨[], []⟩ "a.md" "こんにちは" (some 1) (some 2) 3
      "a.md" none "a.md" [chunkId "こんにちは"] 1 2 15 (by decide),
   by decide⟩

/-! ## Claim C10 -/

/-- C10. Every metadata document the engine writes has a `children` list of
exactly one element, the chunk id of the file content. -/
theorem writeFile_meta_children_singleton (w : World) (p c : String)
    (tc tm : Option Int) (now : Int) (id : String) (rev? : Option Nat)
    (q : String) (ch : List String) (ct mt : Int) (sz : Nat)
    (hmem : StoreOp.putOp id rev? (.plain q ch ct mt sz) ∈
      (CouchDBClient.writeFile w p c tc tm now).2.2) :
    ch = [chunkId c] ∧ ch.length = 1 := by
  rcases writeFile_ops w p c tc tm now _ hmem with h | ⟨r, ct', mt', h⟩ | ⟨i, h⟩
  · exact absurd h (by simp)
  · simp only [StoreOp.putOp.injEq, DocBody.plain.injEq] at h
    refine ⟨h.2.2.2.1, ?_⟩
    rw [h.2.2.2.1]
    rfl
  · exact absurd h (by simp)

/-- C10 witness at a concrete write. -/
theorem writeFile_meta_children_singleton_witness :
    [chunkId "x"] = [chunkId "x"] ∧ ([chunkId "x"] : List String).length = 1 :=
  writeFile_meta_children_singleton ⟨[], []⟩ "b.md" "x" none none 7
    "b.md" none "b.md" [chunkId "x"] 7 7 1 (by decide)

/-! ## Claim C6 -/

/-- C6. `put` fails with Conflict exactly when the submitted revision does not
match the store's state for the id (a stale or missing revision for an
existing id, or any submitted revision for an absent id), and Conflict is a
distinct outcome from NotFound and NetworkUnavailable. -/
theorem put_conflict_iff_rev_mismatch (s : Store) (id : String)
    (rev? : Option Nat) (body : DocBody) :
    ((CouchDBClient.put ⟨s, []⟩ id rev? body).1 = .error .conflict ↔
      ¬ revMatches s id rev?)
    ∧ Err.conflict ≠ Err.notFound ∧ Err.conflict ≠ Err.network := by
  refine ⟨?_, by decide, by decide⟩
  unfold CouchDBClient.put World.takeNet revMatches
  rcases hf : s.findDoc id with _ | ⟨cur, bd⟩ <;> rcases rev? with _ | r
  · simp [hf]
  · simp [hf]
  · simp [hf]
  · by_cases hr : r = cur <;> simp [hf, hr]

/-! ## Hex-format lemmas for `chunkId` -/

theorem bytesToHex_length (bs : List Nat) : (bytesToHex bs).length = 2 * bs.length := by
  induction bs with
  | nil => rfl
  | cons b rest ih =>
    simp only [bytesToHex, List.map_cons, List.flatten_cons, List.length_append,
      byteHex, List.length_cons, List.length_nil] at *
    omega

theorem sha256_length (msg : List Nat) : (sha256 msg).length = 32 := by
  simp [sha256, wordBytes]

theorem nibbleChar_mem (n : Nat) : nibbleChar n ∈ hexChars := by
  unfold nibbleChar
  by_cases h : n < 16
  · interval_cases n <;> decide
  · have h16 : hexChars.length ≤ n := by
      have hlen : hexChars.length = 16 := rfl
      omega
    rw [List.getD_eq_default _ _ h16]
    decide

theorem bytesToHex_mem (bs : List Nat) (ch : Char) (h : ch ∈ bytesToHex bs) :
    ch ∈ hexChars := by
  unfold bytesToHex at h
  rw [List.mem_flatten] at h
  obtain ⟨l, hl, hch⟩ := h
  rw [List.mem_map] at hl
  obtain ⟨b, hb, rfl⟩ := hl
  simp only [byteHex, List.mem_cons, List.not_mem_nil, or_false] at hch
  rcases hch with h | h <;> rw [h] <;> exact nibbleChar_mem _

theorem chunkId_data (c : String) :
    (chunkId c).data = 'h' :: ':' :: (bytesToHex (sha256 (strUtf8 c))).take 40 := rfl

/-! ## Claim C4 -/

/-- C4. `chunkId` is a pure, total function (in particular it is defined for
the empty input and trivially deterministic): its result is the fixed prefix
`h:` followed by exactly 40 lowercase hexadecimal characters; and syncing
identical content at two different paths yields two metadata documents
referencing the same chunk id while the chunk document is put exactly once
(created only because it was absent; the second write sees it and skips the
put). -/
theorem chunkId_format_and_dedup :
    (∀ c : String, (chunkId c).length = 42) ∧
    (∀ c : String, (chunkId c).data.take 2 = ['h', ':']) ∧
    (∀ c : String, ∀ ch ∈ (chunkId c).data.drop 2, ch ∈ hexChars) ∧
    (∀ c₁ c₂ : String, c₁ = c₂ → chunkId c₁ = chunkId c₂) ∧
    (∀ (s : Store) (p₁ p₂ c : String) (tc₁ tm₁ tc₂ tm₂ : Option Int) (n₁ n₂ : Int),
      p₁ ≠ chunkId c → p₂ ≠ chunkId c → p₁ ≠ p₂ →
      s.findDoc (chunkId c) = none →
      (∃ rev ct mt,
        (CouchDBClient.writeFile
            (CouchDBClient.writeFile ⟨s, []⟩ p₁ c tc₁ tm₁ n₁).2.1
            p₂ c tc₂ tm₂ n₂).2.1.store.findDoc p₁ =
          some (rev, .plain p₁ [chunkId c] ct mt (utf8Len c))) ∧
      (∃ rev ct mt,
        (CouchDBClient.writeFile
            (CouchDBClient.writeFile ⟨s, []⟩ p₁ c tc₁ tm₁ n₁).2.1
            p₂ c tc₂ tm₂ n₂).2.1.store.findDoc p₂ =
          some (rev, .plain p₂ [chunkId c] ct mt (utf8Len c))) ∧
      (((CouchDBClient.writeFile ⟨s, []⟩ p₁ c tc₁ tm₁ n₁).2.2 ++
         (CouchDBClient.writeFile
            (CouchDBClient.writeFile ⟨s, []⟩ p₁ c tc₁ tm₁ n₁).2.1
            p₂ c tc₂ tm₂ n₂).2.2).filter (isPutTo (chunkId c))).length = 1) := by
  refine ⟨?_, ?_, ?_, ?_, ?_⟩
  · intro c
    show ("h:" ++ String.mk _).length = 42
    rw [String.length_append]
    show 2 + (List.length _) = 42
    rw [List.length_take, bytesToHex_length, sha256_length]
    omega
  · intro c
    rw [chunkId_data]
    rfl
  · intro c ch hch
    rw [chunkId_data] at hch
    simp only [List.drop_succ_cons, List.drop_zero] at hch
    exact bytesToHex_mem _ _ (List.take_subset _ _ hch)
  · intro c₁ c₂ h
    rw [h]
  · intro s p₁ p₂ c tc₁ tm₁ tc₂ tm₂ n₁ n₂ hp₁ hp₂ hpp hl
    have hstep : leafStep s c = s.setDoc (chunkId c) 1 (.leaf c) := by
      unfold leafStep
      rw [hl]
    have hlops : leafOps s c = [.putOp (chunkId c) none (.leaf c)] := by
      unfold leafOps
      rw [hl]
    have hfind₁ :
        ((leafStep s c).setDoc p₁ (newRev s p₁)
            (metaBodyFor s p₁ c tc₁ tm₁ n₁)).findDoc (chunkId c)
          = some (1, .leaf c) := by
      rw [findDoc_setDoc_ne _ _ _ _ _ (Ne.symm hp₁), hstep, findDoc_setDoc_self]
    have hstepGen : ∀ s' : Store, s'.findDoc (chunkId c) = some (1, .leaf c) →
        leafStep s' c = s' := by
      intro s' h
      unfold leafStep
      rw [h]
    have hlopsGen : ∀ s' : Store, s'.findDoc (chunkId c) = some (1, .leaf c) →
        leafOps s' c = [] := by
      intro s' h
      unfold leafOps
      rw [h]
    rw [writeFile_run s p₁ c tc₁ tm₁ n₁ hp₁]
    dsimp only
    rw [writeFile_run _ p₂ c tc₂ tm₂ n₂ hp₂]
    dsimp only
    rw [hstepGen _ hfind₁, hlopsGen _ hfind₁, hlops]
    refine ⟨?_, ?_, ?_⟩
    · refine ⟨newRev s p₁, metaCtime s p₁ tc₁ n₁, tm₁.getD n₁, ?_⟩
      rw [findDoc_setDoc_ne _ _ _ _ _ hpp, findDoc_setDoc_self]
      rfl
    · refine ⟨newRev ((leafStep s c).setDoc p₁ (newRev s p₁)
          (metaBodyFor s p₁ c tc₁ tm₁ n₁)) p₂,
        metaCtime ((leafStep s c).setDoc p₁ (newRev s p₁)
          (metaBodyFor s p₁ c tc₁ tm₁ n₁)) p₂ tc₂ n₂,
        tm₂.getD n₂, ?_⟩
      rw [findDoc_setDoc_self]
      rfl
    · simp [isPutTo, hp₁, hp₂]

/-- C4 witness: the empty input is handled, and writing "dup" at two paths
shares one chunk put. -/
theorem chunkId_format_and_dedup_witness :
    (chunkId "").length = 42 ∧
    (∃ rev ct mt,
      (CouchDBClient.writeFile
          (CouchDBClient.writeFile ⟨[], []⟩ "x.md" "dup" none none 1).2.1
          "y.md" "dup" none none 2).2.1.store.findDoc "x.md" =
        some (rev, .plain "x.md" [chunkId "dup"] ct mt (utf8Len "dup"))) ∧
    (((CouchDBClient.writeFile ⟨[], []⟩ "x.md" "dup" none none 1).2.2 ++
       (CouchDBClient.writeFile
          (CouchDBClient.writeFile ⟨[], []⟩ "x.md" "dup" none none 1).2.1
          "y.md" "dup" none none 2).2.2).filter (isPutTo (chunkId "dup"))).length
      = 1 := by
  obtain ⟨h1, h2, h3, h4, h5⟩ := chunkId_format_and_dedup
  have hd := h5 [] "x.md" "y.md" "dup" none none none none 1 2
    (by decide) (by decide) (by decide) (by decide)
  exact ⟨h1 "", hd.1, hd.2.2⟩

/-! ## Evaluation of `readFile` against a reachable transport -/

theorem get_nil (s : Store) (id : String) :
    CouchDBClient.get ⟨s, []⟩ id = (.ok (s.findDoc id), ⟨s, []⟩, [.getOp id]) := rfl

theorem join_singleton (c : String) : String.join [c] = c := by
  cases c
  rfl

theorem readChunks_ok (s : Store) (p : String) (ch : List String)
    (h : ∀ cid ∈ ch, (s.findDoc cid).isSome) :
    CouchDBClient.readChunks ⟨s, []⟩ ch p =
      (.ok (ch.map (chunkPayload s)), ⟨s, []⟩, ch.map .getOp) := by
  induction ch with
  | nil => rfl
  | cons cid rest ih =>
    have hc := h cid (List.mem_cons_self _ _)
    have hrest : ∀ cid' ∈ rest, (s.findDoc cid').isSome :=
      fun cid' h' => h cid' (List.mem_cons_of_mem _ h')
    rcases hcase : s.findDoc cid with _ | ⟨rev, body⟩
    · rw [hcase] at hc
      simp at hc
    · unfold CouchDBClient.readChunks
      rw [get_nil, hcase]
      dsimp only
      rw [ih hrest]
      dsimp only
      rw [List.map_cons, List.map_cons]
      have : chunkPayload s cid = body.dataOf := by
        unfold chunkPayload
        rw [hcase]
      rw [this]
      rfl

theorem readChunks_missing (s : Store) (p : String) (ch : List String) (cid : String)
    (h : ch.find? (fun c => (s.findDoc c).isNone) = some cid) :
    (CouchDBClient.readChunks ⟨s, []⟩ ch p).1 = .error (.missingChunk cid p) := by
  induction ch with
  | nil => simp [List.find?] at h
  | cons c0 rest ih =>
    rcases hcase : s.findDoc c0 with _ | ⟨rev, body⟩
    · have hc0 : cid = c0 := by
        rw [List.find?_cons_of_pos] at h
        · exact (Option.some.injEq _ _ ▸ h).symm
        · simp [hcase]
      unfold CouchDBClient.readChunks
      rw [get_nil, hcase]
      subst hc0
      rfl
    · have hrest : rest.find? (fun c => (s.findDoc c).isNone) = some cid := by
        rw [List.find?_cons_of_neg] at h
        · exact h
        · simp [hcase]
      unfold CouchDBClient.readChunks
      rw [get_nil, hcase]
      dsimp only
      rcases hr : CouchDBClient.readChunks ⟨s, []⟩ rest p with ⟨r, w', ops⟩
      have := ih hrest
      rw [hr] at this
      dsimp only at this
      subst this
      rfl

theorem readFile_eval_plain (s : Store) (p q : String) (rev : Nat)
    (ch : List String) (ct mt : Int) (sz : Nat)
    (hm : s.findDoc p = some (rev, .plain q ch ct mt sz))
    (hall : ∀ cid ∈ ch, (s.findDoc cid).isSome) :
    (CouchDBClient.readFile ⟨s, []⟩ p).1 =
      .ok (some (String.join (ch.map (chunkPayload s)))) := by
  unfold CouchDBClient.readFile
  rw [get_nil, hm]
  dsimp only [DocBody.childrenOf]
  rw [readChunks_ok s p ch hall]

theorem readFile_eval_missing (s : Store) (p q : String) (rev : Nat)
    (ch : List String) (ct mt : Int) (sz : Nat) (cid : String)
    (hm : s.findDoc p = some (rev, .plain q ch ct mt sz))
    (hmiss : ch.find? (fun c => (s.findDoc c).isNone) = some cid) :
    (CouchDBClient.readFile ⟨s, []⟩ p).1 = .error (.missingChunk cid p) := by
  unfold CouchDBClient.readFile
  rw [get_nil, hm]
  dsimp only [DocBody.childrenOf]
  rcases hr : CouchDBClient.readChunks ⟨s, []⟩ ch p with ⟨r, w', ops⟩
  have := readChunks_missing s p ch cid hmiss
  rw [hr] at this
  dsimp only at this
  subst this
  rfl

/-! ## Claim C2 -/

/-- C2 counterexample. The unrestricted round-trip claim fails on the code at
two concrete inputs: (a) a path equal to the chunk id of its own content
(`p = chunkId "x"`, empty store): the leaf put lands at the path id, the
metadata put then conflicts, and a subsequent read finds a leaf document at
the path; (b) a pre-existing document stored under `chunkId "x"` holding
`"z"`: `writeFile` treats it as the already-present chunk (content-addressed
check) and the read returns `"z"`, not `"x"`. -/
theorem roundtrip_counterexample :
    (CouchDBClient.readFile
        (CouchDBClient.writeFile ⟨[], []⟩ (chunkId "x") "x" none none 0).2.1
        (chunkId "x")).1 ≠ .ok (some "x")
    ∧ (CouchDBClient.readFile
        (CouchDBClient.writeFile ⟨[(chunkId "x", 1, .leaf "z")], []⟩
          "a.md" "x" none none 0).2.1
        "a.md").1 ≠ .ok (some "x") := by decide

/-- C2 (amended). Round-trip holds for every path, every content (including
the empty string and multi-byte Unicode) and every starting store, provided
the path is not itself the chunk id of the content and any document already
stored under that chunk id is the chunk holding exactly the content (which is
what the engine itself maintains): writing then reading returns the content
byte for byte. -/
theorem roundtrip_amended (s : Store) (p c : String) (tc tm : Option Int)
    (now : Int) (hp : p ≠ chunkId c) (hleaf : leafConsistent s c = true) :
    (CouchDBClient.readFile
        (CouchDBClient.writeFile ⟨s, []⟩ p c tc tm now).2.1 p).1
      = .ok (some c) := by
  rw [writeFile_run s p c tc tm now hp]
  dsimp only
  have hmeta :
      ((leafStep s c).setDoc p (newRev s p)
          (metaBodyFor s p c tc tm now)).findDoc p
        = some (newRev s p, metaBodyFor s p c tc tm now) :=
    findDoc_setDoc_self _ _ _ _
  have hleafDoc : ∃ rv,
      ((leafStep s c).setDoc p (newRev s p)
          (metaBodyFor s p c tc tm now)).findDoc (chunkId c)
        = some (rv, .leaf c) := by
    rw [findDoc_setDoc_ne _ _ _ _ _ (Ne.symm hp)]
    unfold leafConsistent at hleaf
    rcases hcase : s.findDoc (chunkId c) with _ | ⟨rv, body⟩
    · refine ⟨1, ?_⟩
      unfold leafStep
      rw [hcase, findDoc_setDoc_self]
    · rw [hcase] at hleaf
      have hbody : body = DocBody.leaf c := by
        simpa using hleaf
      refine ⟨rv, ?_⟩
      unfold leafStep
      rw [hcase, hcase, hbody]
  obtain ⟨rv, hleafDoc⟩ := hleafDoc
  have hall : ∀ cid ∈ [chunkId c],
      (((leafStep s c).setDoc p (newRev s p)
          (metaBodyFor s p c tc tm now)).findDoc cid).isSome := by
    intro cid hcid
    rw [List.mem_singleton] at hcid
    subst hcid
    rw [hleafDoc]
    rfl
  rw [readFile_eval_plain _ p p (newRev s p) [chunkId c]
    (metaCtime s p tc now) (tm.getD now) (utf8Len c) hmeta hall]
  have hpayload : chunkPayload
      ((leafStep s c).setDoc p (newRev s p) (metaBodyFor s p c tc tm now))
      (chunkId c) = c := by
    unfold chunkPayload
    rw [hleafDoc]
    rfl
  rw [List.map_singleton, hpayload, join_singleton]

/-- C2 witness: round-trip of a multi-byte Unicode string on the empty
store. -/
theorem roundtrip_amended_witness :
    (CouchDBClient.readFile
        (CouchDBClient.writeFile ⟨[], []⟩ "a.md" "héllo🌸" none none 0).2.1
        "a.md").1
      = .ok (some "héllo🌸") :=
  roundtrip_amended [] "a.md" "héllo🌸" none none 0 (by decide) (by decide)

/-! ## Claim C7 -/

/-- C7. `readFile` returns `null` exactly when no document exists at the
path; when the path holds a metadata document it fetches every id in
`children` in order and returns the join of their payloads; and when any
referenced chunk is missing it raises the `Missing chunk` integrity error
(for the first missing child) instead of skipping it. -/
theorem readFile_notfound_concat_integrity (s : Store) (p : String) :
    ((CouchDBClient.readFile ⟨s, []⟩ p).1 = .ok none ↔ s.findDoc p = none) ∧
    (∀ rev q ch ct mt sz, s.findDoc p = some (rev, .plain q ch ct mt sz) →
      (∀ cid ∈ ch, (s.findDoc cid).isSome) →
      (CouchDBClient.readFile ⟨s, []⟩ p).1 =
        .ok (some (String.join (ch.map (chunkPayload s))))) ∧
    (∀ rev q ch ct mt sz cid, s.findDoc p = some (rev, .plain q ch ct mt sz) →
      ch.find? (fun c => (s.findDoc c).isNone) = some cid →
      (CouchDBClient.readFile ⟨s, []⟩ p).1 = .error (.missingChunk cid p)) := by
  refine ⟨?_, ?_, ?_⟩
  · rcases hm : s.findDoc p with _ | ⟨rev, body⟩
    · unfold CouchDBClient.readFile
      rw [get_nil, hm]
      simp
    · rcases body with ⟨q, ch, ct, mt, sz⟩ | d
      · constructor
        · intro h
          rcases hfind : ch.find? (fun c => (s.findDoc c).isNone) with _ | cid
          · have hall : ∀ cid ∈ ch, (s.findDoc cid).isSome := by
              intro cid hcid
              have hne := List.find?_eq_none.mp hfind cid hcid
              simp only [Option.isNone_iff_eq_none] at hne
              exact Option.isSome_iff_ne_none.mpr hne
            rw [readFile_eval_plain s p q rev ch ct mt sz hm hall] at h
            simp at h
          · rw [readFile_eval_missing s p q rev ch ct mt sz cid hm hfind] at h
            simp at h
        · intro h
          simp at h
      · unfold CouchDBClient.readFile
        rw [get_nil, hm]
        simp [DocBody.childrenOf]
  · intro rev q ch ct mt sz hm hall
    exact readFile_eval_plain s p q rev ch ct mt sz hm hall
  · intro rev q ch ct mt sz cid hm hfind
    exact readFile_eval_missing s p q rev ch ct mt sz cid hm hfind

/-- C7 witness: a two-chunk file reassembles in order, and a dangling
`children` reference raises the integrity error. -/
theorem readFile_notfound_concat_integrity_witness :
    (CouchDBClient.readFile
        ⟨[("a.md", 1, .plain "a.md" ["h:1", "h:2"] 0 0 4),
          ("h:1", 1, .leaf "hi"), ("h:2", 1, .leaf "ho")], []⟩ "a.md").1
      = .ok (some (String.join (["h:1", "h:2"].map (chunkPayload
          [("a.md", 1, .plain "a.md" ["h:1", "h:2"] 0 0 4),
           ("h:1", 1, .leaf "hi"), ("h:2", 1, .leaf "ho")]))))
    ∧ (CouchDBClient.readFile
        ⟨[("b.md", 1, .plain "b.md" ["h:9"] 0 0 1)], []⟩ "b.md").1
      = .error (.missingChunk "h:9" "b.md") :=
  ⟨((readFile_notfound_concat_integrity
      [("a.md", 1, .plain "a.md" ["h:1", "h:2"] 0 0 4),
       ("h:1", 1, .leaf "hi"), ("h:2", 1, .leaf "ho")] "a.md").2.1)
      1 "a.md" ["h:1", "h:2"] 0 0 4 (by decide) (by decide),
   ((readFile_notfound_concat_integrity
      [("b.md", 1, .plain "b.md" ["h:9"] 0 0 1)] "b.md").2.2)
      1 "b.md" ["h:9"] 0 0 1 "h:9" (by decide) (by decide)⟩

/-! ## The `syncFiles` loop equation -/

theorem syncFiles_cons (fs : Fs) (w : World) (dry del : Bool) (now : Int)
    (p : String) (rest : List String) :
    syncFiles fs w dry del now (p :: rest) =
      (consOutcome p (syncOne fs w dry del now p).1
         (syncFiles fs (syncOne fs w dry del now p).2.1 dry del now rest).1,
       (syncFiles fs (syncOne fs w dry del now p).2.1 dry del now rest).2.1,
       (syncOne fs w dry del now p).2.2 ++
        (syncFiles fs (syncOne fs w dry del now p).2.1 dry del now rest).2.2) := by
  show (match syncOne fs w dry del now p with
        | (out, w', ops1) =>
          match syncFiles fs w' dry del now rest with
          | (res, w'', ops2) => (consOutcome p out res, w'', ops1 ++ ops2)) = _
  rcases ho : syncOne fs w dry del now p with ⟨out, w1, ops1⟩
  dsimp only

/-! ## Claim C8 -/

/-- C8 counterexample. The claim says a dry run still performs the read-only
store existence check for the record to delete. It does not: the dry-run
delete branch returns before any client call, so the request log is empty
(first conjunct) and the path is reported deleted without consulting the
store (second conjunct), whereas the same non-dry run issues the get
existence check followed by the delete (third conjunct). -/
theorem dryrun_no_store_check_counterexample :
    (syncFiles [] ⟨[], []⟩ true true 0 ["a.md"]).2.2 = []
    ∧ (syncFiles [] ⟨[], []⟩ true true 0 ["a.md"]).1.deleted = ["a.md"]
    ∧ (syncFiles []
        ⟨[("a.md", 1, DocBody.plain "a.md" ["h:x"] 0 0 1)], []⟩
        false true 0 ["a.md"]).2.2
      = [.getOp "a.md", .delOp "a.md" 1] := by decide

/-- C8 (amended). In dry-run mode `syncFiles` issues no store request at all
— neither the mutating put/delete nor the read-only existence check of the
delete branch — and leaves the store untouched, while reporting every path
present on disk as synced and (when deletion is requested) every absent path
as deleted, optimistically. On-disk existence checks and content reads still
happen (they precede the dry-run check in the sync branch). -/
theorem syncFiles_dryrun_frame (fs : Fs) (w : World) (del : Bool) (now : Int)
    (paths : List String) :
    syncFiles fs w true del now paths =
      (⟨paths.filter (fun p => (fs.findFile p).isSome),
        if del then paths.filter (fun p => (fs.findFile p).isNone) else [],
        []⟩, w, []) := by
  induction paths with
  | nil => cases del <;> rfl
  | cons p rest ih =>
    have hone : syncOne fs w true del now p =
        ((match fs.findFile p with
          | none => if del then PathOutcome.deletedP else PathOutcome.skippedP
          | some _ => PathOutcome.syncedP), w, []) := by
      unfold syncOne
      rcases hf : fs.findFile p with _ | fi
      · cases del <;> simp
      · simp
    rw [syncFiles_cons, hone]
    dsimp only
    rw [ih]
    dsimp only
    rcases hf : fs.findFile p with _ | fi <;> cases del <;>
      simp [consOutcome, hf]

/-! ## `syncFiles` compositionality and attribution lemmas -/

theorem syncFiles_append (fs : Fs) (dry del : Bool) (now : Int)
    (ps₁ ps₂ : List String) : ∀ w : World,
    syncFiles fs w dry del now (ps₁ ++ ps₂) =
      ((⟨(syncFiles fs w dry del now ps₁).1.synced ++
          (syncFiles fs (syncFiles fs w dry del now ps₁).2.1
            dry del now ps₂).1.synced,
         (syncFiles fs w dry del now ps₁).1.deleted ++
          (syncFiles fs (syncFiles fs w dry del now ps₁).2.1
            dry del now ps₂).1.deleted,
         (syncFiles fs w dry del now ps₁).1.errors ++
          (syncFiles fs (syncFiles fs w dry del now ps₁).2.1
            dry del now ps₂).1.errors⟩ : SyncResult),
       (syncFiles fs (syncFiles fs w dry del now ps₁).2.1 dry del now ps₂).2.1,
       (syncFiles fs w dry del now ps₁).2.2 ++
        (syncFiles fs (syncFiles fs w dry del now ps₁).2.1
          dry del now ps₂).2.2) := by
  induction ps₁ with
  | nil =>
    intro w
    show syncFiles fs w dry del now ps₂ = _
    rcases h : syncFiles fs w dry del now ps₂ with ⟨⟨a, b, c⟩, w', ops⟩
    simp [syncFiles, h]
  | cons p rest ih =>
    intro w
    rw [List.cons_append, syncFiles_cons, syncFiles_cons, ih]
    rcases ho : syncOne fs w dry del now p with ⟨out, w1, ops1⟩
    dsimp only
    rcases h1 : syncFiles fs w1 dry del now rest with ⟨⟨a1, b1, c1⟩, w2, opsA⟩
    dsimp only
    rcases h2 : syncFiles fs w2 dry del now ps₂ with ⟨⟨a2, b2, c2⟩, w3, opsB⟩
    dsimp only
    cases out <;> simp [consOutcome]

theorem syncFiles_synced_subset (fs : Fs) (dry del : Bool) (now : Int) :
    ∀ (paths : List String) (w : World) (p : String),
      p ∈ (syncFiles fs w dry del now paths).1.synced → p ∈ paths := by
  intro paths
  induction paths with
  | nil =>
    intro w p h
    simp [syncFiles] at h
  | cons q rest ih =>
    intro w p h
    rw [syncFiles_cons] at h
    dsimp only at h
    have hsub := ih (syncOne fs w dry del now q).2.1 p
    cases ho : (syncOne fs w dry del now q).1 <;>
      rw [ho] at h <;> simp only [consOutcome] at h
    · rcases List.mem_cons.mp h with hp | hp
      · simp [hp]
      · simp [hsub hp]
    · simp [hsub h]
    · simp [hsub h]
    · simp [hsub h]

theorem syncFiles_errors_subset (fs : Fs) (dry del : Bool) (now : Int) :
    ∀ (paths : List String) (w : World) (p : String),
      p ∈ (syncFiles fs w dry del now paths).1.errors.map Prod.fst →
        p ∈ paths := by
  intro paths
  induction paths with
  | nil =>
    intro w p h
    simp [syncFiles] at h
  | cons q rest ih =>
    intro w p h
    rw [syncFiles_cons] at h
    dsimp only at h
    have hsub := ih (syncOne fs w dry del now q).2.1 p
    cases ho : (syncOne fs w dry del now q).1 <;>
      rw [ho] at h <;> simp only [consOutcome] at h
    · simp [hsub h]
    · simp [hsub h]
    · simp [hsub h]
    · rw [List.map_cons] at h
      rcases List.mem_cons.mp h with hp | hp
      · simp [hp]
      · simp [hsub hp]

theorem syncFiles_nodup_disjoint (fs : Fs) (dry del : Bool) (now : Int) :
    ∀ (paths : List String) (w : World), paths.Nodup → ∀ p : String,
      ¬(p ∈ (syncFiles fs w dry del now paths).1.synced ∧
        p ∈ (syncFiles fs w dry del now paths).1.errors.map Prod.fst) := by
  intro paths
  induction paths with
  | nil =>
    intro w _ p h
    simp [syncFiles] at h
  | cons q rest ih =>
    intro w hnd p h
    have hq : q ∉ rest := (List.nodup_cons.mp hnd).1
    have hnd' : rest.Nodup := (List.nodup_cons.mp hnd).2
    rw [syncFiles_cons] at h
    dsimp only at h
    have hsubS := syncFiles_synced_subset fs dry del now rest
      (syncOne fs w dry del now q).2.1 p
    have hsubE := syncFiles_errors_subset fs dry del now rest
      (syncOne fs w dry del now q).2.1 p
    have hih := ih (syncOne fs w dry del now q).2.1 hnd' p
    cases ho : (syncOne fs w dry del now q).1 <;>
      rw [ho] at h <;> simp only [consOutcome] at h
    · rcases List.mem_cons.mp h.1 with hp | hp
      · exact hq (hp ▸ hsubE h.2)
      · exact hih ⟨hp, h.2⟩
    · exact hih h
    · exact hih h
    · rw [List.map_cons] at h
      rcases List.mem_cons.mp h.2 with hp | hp
      · have hp' : p = q := hp
        exact hq (hp' ▸ hsubS h.1)
      · exact hih ⟨h.1, hp⟩

/-! ## Claim C5 -/

/-- C5 counterexample. With a transport failure on the fifth request, the
duplicate batch `["a.md", "a.md"]` puts the same path in both `synced` (first
occurrence succeeds) and `errors` (second occurrence hits the network
failure), refuting "a path never appears in both synced and errors" for
arbitrary path lists. -/
theorem syncFiles_dup_path_in_synced_and_errors :
    (syncFiles [("a.md", ⟨"x", 1, 2⟩)] ⟨[], [true, true, true, true, false]⟩
        false false 10 ["a.md", "a.md"]).1
      = ⟨["a.md"], [], [("a.md", .network)]⟩
    ∧ "a.md" ∈ (syncFiles [("a.md", ⟨"x", 1, 2⟩)]
        ⟨[], [true, true, true, true, false]⟩
        false false 10 ["a.md", "a.md"]).1.synced
    ∧ "a.md" ∈ (syncFiles [("a.md", ⟨"x", 1, 2⟩)]
        ⟨[], [true, true, true, true, false]⟩
        false false 10 ["a.md", "a.md"]).1.errors.map Prod.fst := by decide

/-- C5 (amended). Paths are processed independently and a failure never
aborts the batch: the run over `ps₁ ++ ps₂` is exactly the run over `ps₁`
followed by the run over `ps₂` from the resulting state, with the synced,
deleted, error and request lists concatenated — so every remaining path is
still processed whatever happened before, and each per-path failure
contributes one `(path, error)` entry. For a list of pairwise-distinct paths
(each occurrence is processed once), a path never appears in both `synced`
and `errors`. -/
theorem syncFiles_partial_failure (fs : Fs) (dry del : Bool) (now : Int) :
    (∀ (ps₁ ps₂ : List String) (w : World),
      syncFiles fs w dry del now (ps₁ ++ ps₂) =
        ((⟨(syncFiles fs w dry del now ps₁).1.synced ++
            (syncFiles fs (syncFiles fs w dry del now ps₁).2.1
              dry del now ps₂).1.synced,
           (syncFiles fs w dry del now ps₁).1.deleted ++
            (syncFiles fs (syncFiles fs w dry del now ps₁).2.1
              dry del now ps₂).1.deleted,
           (syncFiles fs w dry del now ps₁).1.errors ++
            (syncFiles fs (syncFiles fs w dry del now ps₁).2.1
              dry del now ps₂).1.errors⟩ : SyncResult),
         (syncFiles fs (syncFiles fs w dry del now ps₁).2.1
           dry del now ps₂).2.1,
         (syncFiles fs w dry del now ps₁).2.2 ++
          (syncFiles fs (syncFiles fs w dry del now ps₁).2.1
            dry del now ps₂).2.2)) ∧
    (∀ (paths : List String) (w : World), paths.Nodup → ∀ p : String,
      ¬(p ∈ (syncFiles fs w dry del now paths).1.synced ∧
        p ∈ (syncFiles fs w dry del now paths).1.errors.map Prod.fst)) :=
  ⟨fun ps₁ ps₂ w => syncFiles_append fs dry del now ps₁ ps₂ w,
   fun paths w h p => syncFiles_nodup_disjoint fs dry del now paths w h p⟩

/-- C5 witness: a distinct two-path batch never reports a path in both
lists. -/
theorem syncFiles_partial_failure_witness :
    ¬("a.md" ∈ (syncFiles [("a.md", ⟨"x", 1, 2⟩)] ⟨[], []⟩
        false false 10 ["a.md", "b.md"]).1.synced ∧
      "a.md" ∈ (syncFiles [("a.md", ⟨"x", 1, 2⟩)] ⟨[], []⟩
        false false 10 ["a.md", "b.md"]).1.errors.map Prod.fst) :=
  (syncFiles_partial_failure [("a.md", ⟨"x", 1, 2⟩)] false false 10).2
    ["a.md", "b.md"] ⟨[], []⟩ (by decide) "a.md"

/-! ## Pending-map lemmas for the watcher -/

theorem lookup_setPending_self (l : List (String × Nat)) (q : String) (t : Nat) :
    lookupPending (setPending l q t) q = some t := by
  induction l with
  | nil => simp [setPending, lookupPending]
  | cons hd rest ih =>
    obtain ⟨k, u⟩ := hd
    by_cases hk : k = q <;> simp [setPending, lookupPending, hk, ih]

theorem lookup_setPending_ne (l : List (String × Nat)) (q q' : String) (t : Nat)
    (h : q' ≠ q) : lookupPending (setPending l q t) q' = lookupPending l q' := by
  induction l with
  | nil => simp [setPending, lookupPending, Ne.symm h]
  | cons hd rest ih =>
    obtain ⟨k, u⟩ := hd
    by_cases hk : k = q
    · subst hk
      simp [setPending, lookupPending, Ne.symm h]
    · simp [setPending, lookupPending, hk, ih]

theorem lookup_removePending_ne (l : List (String × Nat)) (q q' : String)
    (h : q' ≠ q) : lookupPending (removePending l q) q' = lookupPending l q' := by
  induction l with
  | nil => simp [removePending, lookupPending]
  | cons hd rest ih =>
    obtain ⟨k, u⟩ := hd
    by_cases hk : k = q
    · subst hk
      simp [removePending, lookupPending, Ne.symm h]
    · simp [removePending, lookupPending, hk, ih]

theorem mem_setPending (l : List (String × Nat)) (q : String) (t : Nat)
    (pr : String × Nat) (h : pr ∈ setPending l q t) : pr ∈ l ∨ pr = (q, t) := by
  induction l with
  | nil =>
    simp [setPending] at h
    simp [h]
  | cons hd rest ih =>
    obtain ⟨k, u⟩ := hd
    by_cases hk : k = q
    · subst hk
      simp [setPending] at h
      rcases h with h | h
      · simp [h]
      · simp [h]
    · simp [setPending, hk] at h
      rcases h with h | h
      · simp [h]
      · rcases ih h with h' | h'
        · simp [h']
        · simp [h']

theorem keys_setPending_mem (l : List (String × Nat)) (q : String) (t : Nat)
    (k : String) (h : k ∈ (setPending l q t).map Prod.fst) :
    k ∈ l.map Prod.fst ∨ k = q := by
  rw [List.mem_map] at h
  obtain ⟨pr, hpr, rfl⟩ := h
  rcases mem_setPending l q t pr hpr with h' | h'
  · exact Or.inl (List.mem_map_of_mem _ h')
  · simp [h']

theorem keys_setPending_nodup (l : List (String × Nat)) (q : String) (t : Nat)
    (h : (l.map Prod.fst).Nodup) : ((setPending l q t).map Prod.fst).Nodup := by
  induction l with
  | nil => simp [setPending]
  | cons hd rest ih =>
    obtain ⟨k, u⟩ := hd
    rw [List.map_cons, List.nodup_cons] at h
    by_cases hk : k = q
    · subst hk
      have hset : setPending ((k, u) :: rest) k t = (k, t) :: rest := by
        simp [setPending]
      rw [hset, List.map_cons, List.nodup_cons]
      exact ⟨h.1, h.2⟩
    · simp only [setPending, if_neg hk, List.map_cons, List.nodup_cons]
      refine ⟨?_, ih h.2⟩
      intro hmem
      rcases keys_setPending_mem rest q t k hmem with h' | h'
      · exact h.1 h'
      · exact hk h'

theorem removePending_sublist (l : List (String × Nat)) (q : String) :
    List.Sublist (removePending l q) l := by
  induction l with
  | nil => simp [removePending]
  | cons hd rest ih =>
    obtain ⟨k, u⟩ := hd
    by_cases hk : k = q
    · simp only [removePending, if_pos hk]
      exact List.sublist_cons_of_sublist _ (List.Sublist.refl _)
    · simp only [removePending, if_neg hk]
      exact List.Sublist.cons₂ _ ih

/-! ## Structural lemmas for the watcher transitions -/

theorem clearPending_fields (s : WatchState) (p : String) :
    (clearPending s p).nextId = s.nextId ∧
    (clearPending s p).pending = s.pending ∧
    (clearPending s p).dispatched = s.dispatched ∧
    List.Sublist (clearPending s p).armed s.armed := by
  unfold clearPending
  rcases lookupPending s.pending p with _ | tid
  · exact ⟨rfl, rfl, rfl, List.Sublist.refl _⟩
  · exact ⟨rfl, rfl, rfl, List.filter_sublist _⟩

theorem foldl_fireTimer_facts (l : List Timer) : ∀ s : WatchState,
    (l.foldl fireTimer s).nextId = s.nextId ∧
    (l.foldl fireTimer s).armed = s.armed ∧
    (l.foldl fireTimer s).dispatched =
      s.dispatched ++ l.map (fun tm => (tm.tpath, tm.intent)) ∧
    (l.foldl fireTimer s).pending =
      l.foldl (fun pnd tm => removePending pnd tm.tpath) s.pending := by
  induction l with
  | nil =>
    intro s
    simp
  | cons tm rest ih =>
    intro s
    have h := ih (fireTimer s tm)
    simp only [List.foldl_cons]
    refine ⟨h.1, h.2.1, ?_, h.2.2.2⟩
    rw [h.2.2.1]
    simp [fireTimer]

theorem lookup_foldl_remove (l : List Timer) (q : String)
    (h : ∀ tm ∈ l, tm.tpath ≠ q) : ∀ pnd : List (String × Nat),
    lookupPending (l.foldl (fun pnd tm => removePending pnd tm.tpath) pnd) q =
      lookupPending pnd q := by
  induction l with
  | nil =>
    intro pnd
    rfl
  | cons tm rest ih =>
    intro pnd
    have hrest : ∀ tm' ∈ rest, tm'.tpath ≠ q :=
      fun tm' h' => h tm' (List.mem_cons_of_mem _ h')
    simp only [List.foldl_cons]
    rw [ih hrest]
    exact lookup_removePending_ne pnd tm.tpath q
      (Ne.symm (h tm (List.mem_cons_self _ _)))

theorem keys_foldl_remove_nodup (l : List Timer) :
    ∀ pnd : List (String × Nat), (pnd.map Prod.fst).Nodup →
    (((l.foldl (fun pnd tm => removePending pnd tm.tpath) pnd)).map Prod.fst).Nodup := by
  induction l with
  | nil =>
    intro pnd h
    exact h
  | cons tm rest ih =>
    intro pnd h
    simp only [List.foldl_cons]
    exact ih _ (List.Nodup.sublist
      (List.Sublist.map _ (removePending_sublist pnd tm.tpath)) h)

theorem mem_foldl_remove (l : List Timer) :
    ∀ (pnd : List (String × Nat)) (pr : String × Nat),
      pr ∈ l.foldl (fun pnd tm => removePending pnd tm.tpath) pnd → pr ∈ pnd := by
  induction l with
  | nil =>
    intro pnd pr h
    exact h
  | cons tm rest ih =>
    intro pnd pr h
    simp only [List.foldl_cons] at h
    exact (removePending_sublist pnd tm.tpath).subset (ih _ _ h)

/-! ## Well-formedness preservation for the watcher -/

theorem clearPending_pfilter (s : WatchState) (p : String) (hwf : WatchWF s) :
    (clearPending s p).armed.filter (fun tm => tm.tpath = p) = [] := by
  obtain ⟨hpn, han, hap, haf, hpf⟩ := hwf
  unfold clearPending
  rcases hl : lookupPending s.pending p with _ | tid
  · dsimp only
    rw [List.filter_eq_nil_iff]
    intro tm hmem hp
    rw [decide_eq_true_eq] at hp
    have := hap tm hmem
    rw [hp, hl] at this
    exact Option.noConfusion this
  · dsimp only
    rw [List.filter_eq_nil_iff]
    intro tm hmem hp
    rw [decide_eq_true_eq] at hp
    have htid := List.of_mem_filter hmem
    rw [decide_eq_true_eq] at htid
    have hin : tm ∈ s.armed := List.mem_of_mem_filter hmem
    have := hap tm hin
    rw [hp, hl] at this
    exact htid (Option.some.inj this).symm

theorem wf_debounced (exts : List String) (db : Int) (s : WatchState) (t : Int)
    (p : String) (i : Intent) (hwf : WatchWF s) :
    WatchWF (debounced exts db s t p i) := by
  have hcfields := clearPending_fields s p
  have hcfilter := clearPending_pfilter s p hwf
  obtain ⟨hpn, han, hap, haf, hpf⟩ := hwf
  obtain ⟨hn', hp', hd', hsub⟩ := hcfields
  unfold debounced
  by_cases hext : exts.contains (extname p) = true
  · rw [if_pos hext]
    dsimp only
    refine ⟨?_, ?_, ?_, ?_, ?_⟩
    · rw [hp', hn']
      exact keys_setPending_nodup s.pending p s.nextId hpn
    · rw [List.map_append, List.nodup_append]
      refine ⟨List.Nodup.sublist (List.Sublist.map _ hsub) han, by simp, ?_⟩
      intro x hx hy
      simp only [List.map_cons, List.map_nil, List.mem_cons,
        List.not_mem_nil, or_false] at hy
      rw [List.mem_map] at hx
      obtain ⟨tm, htm, rfl⟩ := hx
      have htid : tm.tid < s.nextId := haf tm (hsub.subset htm)
      rw [hn'] at hy
      omega
    · intro tm hmem
      rcases List.mem_append.mp hmem with hmem | hmem
      · have htp : tm.tpath ≠ p := by
          intro hp
          have : tm ∈ (clearPending s p).armed.filter (fun tm => tm.tpath = p) :=
            List.mem_filter.mpr ⟨hmem, by simp [hp]⟩
          rw [hcfilter] at this
          exact List.not_mem_nil _ this
        rw [hp', hn', lookup_setPending_ne _ _ _ _ htp]
        exact hap tm (hsub.subset hmem)
      · rw [List.mem_singleton] at hmem
        subst hmem
        rw [hp', hn']
        exact lookup_setPending_self s.pending p s.nextId
    · intro tm hmem
      rcases List.mem_append.mp hmem with hmem | hmem
      · have := haf tm (hsub.subset hmem)
        rw [hn']
        dsimp only
        omega
      · rw [List.mem_singleton] at hmem
        subst hmem
        rw [hn']
        dsimp only
        omega
    · intro pr hmem
      rw [hp', hn'] at hmem ⊢
      rcases mem_setPending _ _ _ _ hmem with h' | h'
      · have := hpf pr h'
        dsimp only
        omega
      · rw [h']
        dsimp only
        omega
  · rw [if_neg hext]
    exact ⟨hpn, han, hap, haf, hpf⟩

theorem wf_fireDue (s : WatchState) (t : Int) (hwf : WatchWF s) :
    WatchWF (fireDue s t) := by
  obtain ⟨hpn, han, hap, haf, hpf⟩ := hwf
  unfold fireDue
  obtain ⟨hn, ha, hd, hp⟩ := foldl_fireTimer_facts
    (s.armed.filter (fun tm => tm.deadline ≤ t))
    { s with armed := s.armed.filter (fun tm => ¬ tm.deadline ≤ t) }
  refine ⟨?_, ?_, ?_, ?_, ?_⟩
  · rw [hp]
    exact keys_foldl_remove_nodup _ s.pending hpn
  · rw [ha]
    exact List.Nodup.sublist (List.Sublist.map _ (List.filter_sublist _)) han
  · intro tm hmem
    rw [ha] at hmem
    have hin : tm ∈ s.armed := List.mem_of_mem_filter hmem
    have hnot : ∀ d ∈ s.armed.filter (fun tm => tm.deadline ≤ t),
        d.tpath ≠ tm.tpath := by
      intro d hd' heq
      have hdin : d ∈ s.armed := List.mem_of_mem_filter hd'
      have h1 := hap d hdin
      have h2 := hap tm hin
      rw [heq] at h1
      rw [h1] at h2
      have : d = tm :=
        List.inj_on_of_nodup_map han hdin hin (Option.some.inj h2)
      subst this
      have hdue := List.of_mem_filter hd'
      have hrest := List.of_mem_filter hmem
      rw [decide_eq_true_eq] at hdue hrest
      exact hrest hdue
    rw [hp, lookup_foldl_remove _ _ hnot]
    exact hap tm hin
  · intro tm hmem
    rw [ha] at hmem
    rw [hn]
    exact haf tm (List.mem_of_mem_filter hmem)
  · intro pr hmem
    rw [hp] at hmem
    rw [hn]
    exact hpf pr (mem_foldl_remove _ _ _ hmem)

theorem fireDue_facts (s : WatchState) (t : Int) (p : String) :
    (fireDue s t).nextId = s.nextId ∧
    (fireDue s t).armed.filter (fun tm => tm.tpath = p)
      = (s.armed.filter (fun tm => tm.tpath = p)).filter
          (fun tm => ¬ tm.deadline ≤ t) ∧
    (fireDue s t).dispatched = s.dispatched ++
      (s.armed.filter (fun tm => tm.deadline ≤ t)).map
        (fun tm => (tm.tpath, tm.intent)) ∧
    ((s.armed.filter (fun tm => tm.tpath = p)).filter
        (fun tm => tm.deadline ≤ t) = [] →
      lookupPending (fireDue s t).pending p = lookupPending s.pending p) := by
  unfold fireDue
  obtain ⟨hn, ha, hd, hp⟩ := foldl_fireTimer_facts
    (s.armed.filter (fun tm => tm.deadline ≤ t))
    { s with armed := s.armed.filter (fun tm => ¬ tm.deadline ≤ t) }
  refine ⟨hn, ?_, hd, ?_⟩
  · rw [ha]
    rw [List.filter_filter, List.filter_filter]
    apply List.filter_congr
    intro a _
    exact Bool.and_comm _ _
  · intro hnone
    have hnot : ∀ d ∈ s.armed.filter (fun tm => tm.deadline ≤ t),
        d.tpath ≠ p := by
      intro d hd' heq
      have hdin : d ∈ s.armed := List.mem_of_mem_filter hd'
      have hdue := List.of_mem_filter hd'
      have : d ∈ (s.armed.filter (fun tm => tm.tpath = p)).filter
          (fun tm => tm.deadline ≤ t) :=
        List.mem_filter.mpr ⟨List.mem_filter.mpr ⟨hdin, by simp [heq]⟩, hdue⟩
      rw [hnone] at this
      exact List.not_mem_nil _ this
    rw [hp, lookup_foldl_remove _ _ hnot]

theorem length_le_one_of_const {α β : Type} (l : List α) (f : α → β)
    (hn : (l.map f).Nodup) (x : β) (h : ∀ a ∈ l, f a = x) : l.length ≤ 1 := by
  cases l with
  | nil => simp
  | cons a rest =>
    cases rest with
    | nil => simp
    | cons b rest2 =>
      exfalso
      rw [List.map_cons, List.map_cons, List.nodup_cons] at hn
      apply hn.1
      rw [h a (List.mem_cons_self _ _), ← h b (by simp)]
      exact List.mem_cons_self _ _

theorem armedFor_le_one (s : WatchState) (p : String) (hwf : WatchWF s) :
    armedFor s p ≤ 1 := by
  obtain ⟨hpn, han, hap, haf, hpf⟩ := hwf
  unfold armedFor
  rcases hl : lookupPending s.pending p with _ | tid
  · have hnil : s.armed.filter (fun tm => tm.tpath = p) = [] := by
      rw [List.filter_eq_nil_iff]
      intro tm hmem hp
      rw [decide_eq_true_eq] at hp
      have := hap tm hmem
      rw [hp, hl] at this
      exact Option.noConfusion this
    simp [hnil]
  · apply length_le_one_of_const _ Timer.tid ?_ tid ?_
    · exact List.Nodup.sublist (List.Sublist.map _ (List.filter_sublist _)) han
    · intro tm hmem
      have htp := List.of_mem_filter hmem
      rw [decide_eq_true_eq] at htp
      have := hap tm (List.mem_of_mem_filter hmem)
      rw [htp, hl] at this
      exact (Option.some.inj this).symm

/-! ## Debounce burst analysis -/

theorem filter_comm {α : Type} (l : List α) (p q : α → Bool) :
    (l.filter p).filter q = (l.filter q).filter p := by
  induction l with
  | nil => rfl
  | cons a rest ih =>
    by_cases hp : p a <;> by_cases hq : q a <;> simp [hp, hq, ih]

theorem filter_fst_map_pair (l : List Timer) (p : String) :
    (l.map (fun tm => (tm.tpath, tm.intent))).filter (fun d => d.1 = p)
      = (l.filter (fun tm => tm.tpath = p)).map
          (fun tm => (tm.tpath, tm.intent)) := by
  induction l with
  | nil => rfl
  | cons tm rest ih =>
    by_cases hp : tm.tpath = p <;> simp [hp, ih]

theorem no_p_timer (s : WatchState) (p : String) (hwf : WatchWF s)
    (hpend : lookupPending s.pending p = none) :
    s.armed.filter (fun tm => tm.tpath = p) = [] := by
  obtain ⟨hpn, han, hap, haf, hpf⟩ := hwf
  rw [List.filter_eq_nil_iff]
  intro tm hmem hp
  rw [decide_eq_true_eq] at hp
  have := hap tm hmem
  rw [hp, hpend] at this
  exact Option.noConfusion this

theorem debounced_facts (exts : List String) (db : Int) (s : WatchState)
    (t : Int) (p : String) (i : Intent) (hwf : WatchWF s)
    (hext : exts.contains (extname p) = true) :
    lookupPending (debounced exts db s t p i).pending p = some s.nextId ∧
    (debounced exts db s t p i).armed.filter (fun tm => tm.tpath = p)
      = [⟨s.nextId, p, i, t + db⟩] ∧
    (debounced exts db s t p i).dispatched = s.dispatched := by
  have hcfilter := clearPending_pfilter s p hwf
  obtain ⟨hn', hp', hd', hsub⟩ := clearPending_fields s p
  unfold debounced
  rw [if_pos hext]
  dsimp only
  refine ⟨?_, ?_, by rw [hd']⟩
  · rw [hp', hn']
    exact lookup_setPending_self s.pending p s.nextId
  · rw [List.filter_append, hcfilter, hn']
    simp

theorem burst_aux (exts : List String) (db : Int) (p : String)
    (hext : exts.contains (extname p) = true) :
    ∀ (evs : List (Int × Intent)) (s : WatchState) (tid : Nat)
      (intent : Intent) (tprev : Int) (n₀ : Nat),
      WatchWF s →
      lookupPending s.pending p = some tid →
      s.armed.filter (fun tm => tm.tpath = p) = [⟨tid, p, intent, tprev + db⟩] →
      (s.dispatched.drop n₀).filter (fun d => d.1 = p) = [] →
      n₀ ≤ s.dispatched.length →
      List.Chain' (fun e₁ e₂ : Int × Intent => e₁.1 ≤ e₂.1 ∧ e₂.1 < e₁.1 + db)
        ((tprev, intent) :: evs) →
      ∀ T, (evs.getLastD (tprev, intent)).1 + db ≤ T →
      ((fireDue (runEvents exts db s (evs.map (fun e => (e.1, p, e.2))))
          T).dispatched.drop n₀).filter (fun d => d.1 = p)
        = [(p, (evs.getLastD (tprev, intent)).2)] := by
  intro evs
  induction evs with
  | nil =>
    intro s tid intent tprev n₀ hwf hpend harm hdisp hn₀ hchain T hT
    obtain ⟨hn, ha, hd, hplem⟩ := fireDue_facts s T p
    show ((fireDue s T).dispatched.drop n₀).filter (fun d => d.1 = p)
      = [(p, intent)]
    rw [hd, List.drop_append_of_le_length hn₀, List.filter_append, hdisp,
      List.nil_append, filter_fst_map_pair, filter_comm, harm]
    have hTle : tprev + db ≤ T := hT
    have hdue : decide ((⟨tid, p, intent, tprev + db⟩ : Timer).deadline ≤ T)
        = true := by
      rw [decide_eq_true_eq]
      exact hTle
    simp [List.filter_cons, hdue]
  | cons e rest ih =>
    intro s tid intent tprev n₀ hwf hpend harm hdisp hn₀ hchain T hT
    have hchain2 := List.chain'_cons.mp hchain
    have h2 : e.1 < tprev + db := hchain2.1.2
    obtain ⟨hn, ha, hd, hplem⟩ := fireDue_facts s e.1 p
    have hnotdue : ¬ ((⟨tid, p, intent, tprev + db⟩ : Timer).deadline ≤ e.1) := by
      dsimp only
      omega
    have hwf_sf := wf_fireDue s e.1 hwf
    have hlt : ¬ ((tprev + db : Int) ≤ e.1) := by omega
    have harm_sf : (fireDue s e.1).armed.filter (fun tm => tm.tpath = p)
        = [⟨tid, p, intent, tprev + db⟩] := by
      rw [ha, harm]
      simp [h2]
    have hdueP : (s.armed.filter (fun tm => tm.tpath = p)).filter
        (fun tm => tm.deadline ≤ e.1) = [] := by
      rw [harm]
      simp [hlt]
    have hpend_sf : lookupPending (fireDue s e.1).pending p = some tid := by
      rw [hplem hdueP]
      exact hpend
    have hdisp_sf : ((fireDue s e.1).dispatched.drop n₀).filter
        (fun d => d.1 = p) = [] := by
      rw [hd, List.drop_append_of_le_length hn₀, List.filter_append, hdisp,
        List.nil_append, filter_fst_map_pair, filter_comm, hdueP]
      rfl
    have hn₀_sf : n₀ ≤ (fireDue s e.1).dispatched.length := by
      rw [hd, List.length_append]
      omega
    have hwf₁ := wf_debounced exts db (fireDue s e.1) e.1 p e.2 hwf_sf
    obtain ⟨hb1, hb2, hb3⟩ :=
      debounced_facts exts db (fireDue s e.1) e.1 p e.2 hwf_sf hext
    have hdisp₁ : ((debounced exts db (fireDue s e.1) e.1 p e.2).dispatched.drop
        n₀).filter (fun d => d.1 = p) = [] := by
      rw [hb3]
      exact hdisp_sf
    have hn₀₁ : n₀ ≤ (debounced exts db (fireDue s e.1) e.1 p e.2).dispatched.length := by
      rw [hb3]
      exact hn₀_sf
    have hres := ih (debounced exts db (fireDue s e.1) e.1 p e.2)
      (fireDue s e.1).nextId e.2 e.1 n₀ hwf₁ hb1 hb2 hdisp₁ hn₀₁ hchain2.2 T
      (by rw [List.getLastD_cons] at hT; exact hT)
    rw [List.getLastD_cons]
    exact hres

/-! ## Claim C9 -/

/-- C9. Debounce last-event-wins. First part: in any well-formed watcher
state at most one timer is armed per path, and both transitions (handling a
filesystem event, firing due timers) preserve well-formedness. Second part:
from a state with no pending action for `p`, a burst of events for `p`
(times nondecreasing, each arriving strictly within the debounce interval of
its predecessor, extension allowed) followed by quiet until `T ≥ last + db`
dispatches exactly one action for `p`, whose intent (sync or delete) is the
last observed event's — a delete arriving while a sync timer is pending
cancels it and vice versa, since both handlers share the single
`pendingChanges` slot. -/
theorem watch_debounce_last_event_wins :
    (∀ s : WatchState, WatchWF s →
      (∀ p, armedFor s p ≤ 1) ∧
      (∀ exts db t p i, WatchWF (debounced exts db s t p i)) ∧
      (∀ t, WatchWF (fireDue s t))) ∧
    (∀ (exts : List String) (db : Int) (p : String) (s : WatchState)
       (e : Int × Intent) (evs : List (Int × Intent)) (T : Int),
      WatchWF s →
      exts.contains (extname p) = true →
      lookupPending s.pending p = none →
      List.Chain' (fun e₁ e₂ : Int × Intent => e₁.1 ≤ e₂.1 ∧ e₂.1 < e₁.1 + db)
        (e :: evs) →
      (evs.getLastD e).1 + db ≤ T →
      ((fireDue (runEvents exts db s
          ((e :: evs).map (fun x => (x.1, p, x.2)))) T).dispatched.drop
          s.dispatched.length).filter (fun d => d.1 = p)
        = [(p, (evs.getLastD e).2)]) := by
  constructor
  · intro s hwf
    exact ⟨fun p => armedFor_le_one s p hwf,
           fun exts db t p i => wf_debounced exts db s t p i hwf,
           fun t => wf_fireDue s t hwf⟩
  · intro exts db p s e evs T hwf hext hpend hchain hT
    obtain ⟨hn, ha, hd, hplem⟩ := fireDue_facts s e.1 p
    have harm_nil := no_p_timer s p hwf hpend
    have hwf_sf := wf_fireDue s e.1 hwf
    have hdueP : (s.armed.filter (fun tm => tm.tpath = p)).filter
        (fun tm => tm.deadline ≤ e.1) = [] := by
      rw [harm_nil]
      rfl
    have hpend_sf : lookupPending (fireDue s e.1).pending p = none := by
      rw [hplem hdueP]
      exact hpend
    have hdisp_sf : ((fireDue s e.1).dispatched.drop s.dispatched.length).filter
        (fun d => d.1 = p) = [] := by
      rw [hd, List.drop_append_of_le_length (Nat.le_refl _),
        List.filter_append, List.drop_length, filter_fst_map_pair,
        filter_comm, hdueP]
      rfl
    have hn₀_sf : s.dispatched.length ≤ (fireDue s e.1).dispatched.length := by
      rw [hd, List.length_append]
      omega
    have hwf₁ := wf_debounced exts db (fireDue s e.1) e.1 p e.2 hwf_sf
    obtain ⟨hb1, hb2, hb3⟩ :=
      debounced_facts exts db (fireDue s e.1) e.1 p e.2 hwf_sf hext
    have hdisp₁ : ((debounced exts db (fireDue s e.1) e.1 p
        e.2).dispatched.drop s.dispatched.length).filter (fun d => d.1 = p)
        = [] := by
      rw [hb3]
      exact hdisp_sf
    have hn₀₁ : s.dispatched.length ≤
        (debounced exts db (fireDue s e.1) e.1 p e.2).dispatched.length := by
      rw [hb3]
      exact hn₀_sf
    exact burst_aux exts db p hext evs
      (debounced exts db (fireDue s e.1) e.1 p e.2)
      (fireDue s e.1).nextId e.2 e.1 s.dispatched.length
      hwf₁ hb1 hb2 hdisp₁ hn₀₁ hchain T hT

/-- C9 witness: a sync event at time 0 followed by a delete event at time
100 (debounce 200 ms) dispatches exactly one action, the delete, once quiet
through time 300. -/
theorem watch_debounce_last_event_wins_witness :
    ((fireDue (runEvents [".md"] 200 initialWatch
        [(0, "a.md", Intent.syncI), (100, "a.md", Intent.deleteI)])
        300).dispatched.drop 0).filter (fun d => d.1 = "a.md")
      = [("a.md", Intent.deleteI)] :=
  watch_debounce_last_event_wins.2 [".md"] 200 "a.md" initialWatch
    (0, Intent.syncI) [(100, Intent.deleteI)] 300
    (by refine ⟨?_, ?_, ?_, ?_, ?_⟩ <;> simp [initialWatch])
    (by decide) (by decide)
    (by rw [List.chain'_cons]
        exact ⟨⟨by decide, by decide⟩, List.chain'_singleton _⟩)
    (by decide)

end LiveSync
